import Mathlib

set_option maxRecDepth 8000

/-!
Shallow embedding of FancyAnalyzer's convention-table extraction core:
the row scanner `ScanF3PagesForConInfo.py` (name-cell parser
`ExtractConNameInfo`, date-cell parser `ExtractDateInfo`, the splitter
`SplitByTopLevelSlashes`, the per-row reconciliation in
`ScanF3PagesForConInfo`) and the registry `Conventions.py`
(`Conventions.Append`, `ConInstanceInfo`, `IndexTableSingleNameEntry`,
`IndexTableNameEntry.DisplayNameMarkup`), plus the pieces of
`LocalePage.py` they consult.  Strings are processed as `List Char`;
helper functions imported by the source from packages outside this
repository (HelpersPackage, FanzineIssueSpecPackage) are modelled from
the specification and marked as such.
-/

/-- The apostrophe character (used to build corpus strings). -/
def apos : Char := Char.ofNat 39

/-- The closing curly brace character. -/
def braceClose : Char := Char.ofNat 125

/-- Index of the first occurrence of `pat` in `l`, scanning left to right. -/
def firstOcc (pat : List Char) : List Char → Option Nat
  | [] => if pat = [] then some 0 else none
  | c :: cs => if pat.isPrefixOf (c :: cs) then some 0 else (firstOcc pat cs).map (· + 1)

/-- Split at the first occurrence of `pat`: the text before it and the text after it. -/
def splitOnceAt (pat l : List Char) : Option (List Char × List Char) :=
  match firstOcc pat l with
  | none => none
  | some i => some (l.take i, l.drop (i + pat.length))

/-- Python `pat in l` (substring test). -/
def containsSub (l pat : List Char) : Bool := (firstOcc pat l).isSome

/-- Python `str.strip()`. -/
def pyStrip (l : List Char) : List Char :=
  ((l.dropWhile Char.isWhitespace).reverse.dropWhile Char.isWhitespace).reverse

/-- Python `str.replace(pat, rep)`: replace every non-overlapping, leftmost-first
occurrence.  `fuel` bounds the recursion; callers pass the text length. -/
def replaceSub (fuel : Nat) (pat rep l : List Char) : List Char :=
  match fuel with
  | 0 => l
  | fuel + 1 =>
    match splitOnceAt pat l with
    | none => l
    | some (bef, aft) => bef ++ rep ++ replaceSub fuel pat rep aft

/-- Python `str.split(pat)`: split on every occurrence of `pat`. -/
def splitAll (fuel : Nat) (pat l : List Char) : List (List Char) :=
  match fuel with
  | 0 => [l]
  | fuel + 1 =>
    match splitOnceAt pat l with
    | none => [l]
    | some (bef, aft) => bef :: splitAll fuel pat aft

/-- Python regex sub `r"'{2,}" -> ""` from ExtractConNameInfo: delete every run of
two or more consecutive apostrophes. -/
def removeQuoteRuns (fuel : Nat) (l : List Char) : List Char :=
  match fuel, l with
  | 0, l => l
  | _, [] => []
  | fuel + 1, c :: cs =>
    if c = apos ∧ cs.head? = some apos then removeQuoteRuns fuel (cs.dropWhile (· = apos))
    else c :: removeQuoteRuns fuel cs

/-- One attempt of the template regex `r"\x7b\x7b([^\x7d]*?)\|(.*?)\x7d\x7d"` at the
head of `l`: on success returns (second capture group, text after the match). -/
def matchTemplateAt (l : List Char) : Option (List Char × List Char) :=
  if ("\x7b\x7b".data).isPrefixOf l then
    let rest := l.drop 2
    match firstOcc "|".data rest with
    | none => none
    | some i =>
      if (rest.take i).any (· = braceClose) then none
      else
        match splitOnceAt "\x7d\x7d".data (rest.drop (i + 1)) with
        | none => none
        | some (grp, rem) => some (grp, rem)
  else none

/-- `re.sub` of the template pattern: each match replaced by its second group. -/
def replaceTemplates (fuel : Nat) (l : List Char) : List Char :=
  match fuel, l with
  | 0, l => l
  | _, [] => []
  | fuel + 1, c :: cs =>
    match matchTemplateAt (c :: cs) with
    | some (grp, rem) => grp ++ replaceTemplates fuel rem
    | none => c :: replaceTemplates fuel cs

/-- Modelled from the spec: `HelpersPackage.ConvertHTMLishCharacters` is imported
by the source but is not part of this repository; spec section 4.1 step (4) says
"convert known HTML character sequences (non-breaking space, hyphen entity) to
plain equivalents". -/
def ConvertHTMLishCharacters (l : List Char) : List Char :=
  replaceSub l.length "&nbsp;".data " ".data
    (replaceSub l.length "&ndash;".data "-".data
      (replaceSub l.length "&mdash;".data "-".data l))

/-- Modelled from the spec: `HelpersPackage.CompressWhitespace` is imported by the
source but is not part of this repository; spec section 4.1 step (5) says
"collapse runs of whitespace to one space". -/
def CompressWhitespace : List Char → List Char
  | [] => []
  | [c] => [if c.isWhitespace then ' ' else c]
  | c :: d :: cs =>
    if c.isWhitespace ∧ d.isWhitespace then CompressWhitespace (d :: cs)
    else (if c.isWhitespace then ' ' else c) :: CompressWhitespace (d :: cs)

/-- One attempt of the virtual/online regex `r"\(?(virtual|online)\)?"` at the head
of `l`: returns the length of the (greedy) match, if any. -/
def matchVirtualAt (l : List Char) : Option Nat :=
  if ("(virtual)".data).isPrefixOf l then some 9
  else if ("(virtual".data).isPrefixOf l then some 8
  else if ("(online)".data).isPrefixOf l then some 8
  else if ("(online".data).isPrefixOf l then some 7
  else if ("virtual)".data).isPrefixOf l then some 8
  else if ("virtual".data).isPrefixOf l then some 7
  else if ("online)".data).isPrefixOf l then some 7
  else if ("online".data).isPrefixOf l then some 6
  else none

/-- `re.search` of the virtual/online pattern: does any position match? -/
def hasVirtualText : List Char → Bool
  | [] => false
  | c :: cs => (matchVirtualAt (c :: cs)).isSome || hasVirtualText cs

/-- `re.sub` of the virtual/online pattern by the empty string. -/
def removeVirtual (fuel : Nat) (l : List Char) : List Char :=
  match fuel, l with
  | 0, l => l
  | _, [] => []
  | fuel + 1, c :: cs =>
    match matchVirtualAt (c :: cs) with
    | some n => removeVirtual fuel ((c :: cs).drop n)
    | none => c :: removeVirtual fuel cs

/-- The scan loop of `SplitByTopLevelSlashes` (ScanF3PagesForConInfo.py lines
531-539): records every index holding a slash while the running square-bracket
depth (incremented at each single `[`, decremented at each single `]`) is zero. -/
def slashLocsGo (d : Int) (i : Nat) : List Char → List Nat
  | [] => []
  | c :: cs =>
    if c = '[' then slashLocsGo (d + 1) (i + 1) cs
    else if c = ']' then slashLocsGo (d - 1) (i + 1) cs
    else if c = '/' ∧ d = 0 then i :: slashLocsGo d (i + 1) cs
    else slashLocsGo d (i + 1) cs

/-- The slash locations collected by `SplitByTopLevelSlashes`. -/
def slashLocs (l : List Char) : List Nat := slashLocsGo 0 0 l

/-- The slice construction of `SplitByTopLevelSlashes` (lines 543-546): pieces of
`l` between consecutive recorded locations. -/
def piecesFrom (l : List Char) (start : Nat) : List Nat → List (List Char)
  | [] => [l.drop start]
  | j :: rest => (l.drop start).take (j - start) :: piecesFrom l (j + 1) rest

/-- `SplitByTopLevelSlashes` (ScanF3PagesForConInfo.py lines 529-548). -/
def SplitByTopLevelSlashes (l : List Char) : List (List Char) :=
  match slashLocs l with
  | [] => [l]
  | locs => piecesFrom l 0 locs

/-- Running square-bracket balance: count of `[` minus count of `]`. -/
def sqDepth : List Char → Int
  | [] => 0
  | c :: cs => (if c = '[' then 1 else if c = ']' then -1 else 0) + sqDepth cs

/-- Does `l` end with `pat`? -/
def endsWithSub (l pat : List Char) : Bool := pat.reverse.isPrefixOf l.reverse

/-- Modelled from the spec: `HelpersPackage.RemoveTopBracketedText` is imported by
the source but is not part of this repository; spec section 4.3 step (3) says
"strip a top-level `<s>...</s>` wrapper if present (recording cancellation for
that group)".  We strip the wrapper when the whitespace-trimmed text is exactly
`<s>...</s>`, reporting whether one was stripped. -/
def RemoveTopBracketedText (l : List Char) : List Char × Bool :=
  let t := pyStrip l
  if ("<s>".data).isPrefixOf t ∧ endsWithSub t "</s>".data ∧ 7 ≤ t.length then
    ((t.drop 3).take (t.length - 7), true)
  else (l, false)

/-- Read a tag name directly after a `<`: the run of letters must be non-empty and
followed by `>`; returns the tag and the text after the `>`. -/
def readTag (l : List Char) : Option (List Char × List Char) :=
  let tag := l.takeWhile Char.isAlpha
  if tag ≠ [] ∧ (l.drop tag.length).head? = some '>' then some (tag, l.drop (tag.length + 1))
  else none

/-- Modelled from the spec: `HelpersPackage.FindAnyBracketedText` is imported by
the source but is not part of this repository; spec section 4.2 describes
`ExtractFirstBracketed(text, tagname) -> (lead, matched_inner_or_none, remainder)`:
"locates the first well-formed `<tagname>...</tagname>` span (non-greedy) and
returns the text before it, its interior (or none if absent), and the text after
it".  The source unpacks four values (lead, tag, content, remainder); with no
well-formed span the whole text is the lead. -/
def FindAnyBracketedText (fuel : Nat) (l : List Char) :
    List Char × List Char × List Char × List Char :=
  match fuel, l with
  | 0, l => (l, [], [], [])
  | _, [] => ([], [], [], [])
  | fuel + 1, c :: cs =>
    if c = '<' then
      match readTag cs with
      | some (tag, aft) =>
        match splitOnceAt ("</".data ++ tag ++ ">".data) aft with
        | some (content, rem) => ([], tag, content, rem)
        | none =>
          let r := FindAnyBracketedText fuel cs
          (c :: r.1, r.2.1, r.2.2.1, r.2.2.2)
      | none =>
        let r := FindAnyBracketedText fuel cs
        (c :: r.1, r.2.1, r.2.2.1, r.2.2.2)
    else
      let r := FindAnyBracketedText fuel cs
      (c :: r.1, r.2.1, r.2.2.1, r.2.2.2)

/-- Modelled from the spec: `HelpersPackage.ScanForBracketedText(text, "s")` is
imported by the source but is not part of this repository; per spec section 4.4
it detects a `<s>...</s>` span and removes the bracketing, returning the flag
and the text with the brackets removed. -/
def ScanForBracketedText (l : List Char) : Bool × List Char :=
  match splitOnceAt "<s>".data l with
  | none => (false, l)
  | some (bef, aft) =>
    match splitOnceAt "</s>".data aft with
    | none => (false, l)
    | some (inner, rest) => (true, bef ++ inner ++ rest)

/-- The regex `r"^(.*?)\[\[(.*?)\]\](.*)$"` of ExtractConNameInfo (line 503):
lead before the first `[[`, interior up to the first `]]` after it, and the
rest; fails when no such pair exists. -/
def matchLinkPattern (l : List Char) : Option (List Char × List Char × List Char) :=
  match splitOnceAt "[[".data l with
  | none => none
  | some (lead, rest) =>
    match splitOnceAt "]]".data rest with
    | none => none
    | some (inner, rem) => some (lead, inner, rem)

/-- `IndexTableSingleNameEntry` (Conventions.py lines 62-70). -/
structure IndexTableSingleNameEntry where
  link : String
  text : String
  lead : String
  remainder : String
  cancelled : Bool
  virtual : Bool
deriving DecidableEq

/-- Option-valued traversal of a list (the Python for-loop appending one entry
per piece; `none` models an uncaught exception escaping the loop). -/
def mapOpt (f : α → Option β) : List α → Option (List β)
  | [] => some []
  | a :: as =>
    match f a with
    | none => none
    | some b => (mapOpt f as).map (b :: ·)

/-- The `if "|" in text2: link2, text2=text2.split("|")` step (ScanF3PagesForConInfo.py
lines 514-515).  Python unpacks the split into exactly two variables, so a text
with more than one `|` raises ValueError, modelled as `none`. -/
def pipeSplit (t : List Char) : Option (List Char × List Char) :=
  if containsSub t "|".data then
    match splitAll t.length "|".data t with
    | [a, b] => some (a, b)
    | _ => none
  else some (t, t)

/-- Entry construction at ScanF3PagesForConInfo.py lines 517-523.  Source line 518
is literally `cancelled=c2 or c2`: the outer strikeout flag `c1` is not consulted. -/
def finishEntry (virt : Bool) (conseries : List String)
    (link2 text2 lead2 rem2 : List Char) (c2 : Bool) : IndexTableSingleNameEntry :=
  let cancelled := c2 || c2
  let v := virt && !cancelled
  let link := String.mk link2
  { link := if conseries.contains link then "" else link
    text := String.mk text2
    lead := String.mk lead2
    remainder := String.mk rem2
    cancelled := cancelled
    virtual := v }

/-- The body of the inner `for name2 in names1` loop of ExtractConNameInfo
(ScanF3PagesForConInfo.py lines 495-523). -/
def processName2 (virt : Bool) (conseries : List String) (name2 : List Char) :
    Option IndexTableSingleNameEntry :=
  let p1 := RemoveTopBracketedText name2
  let p2 :=
    if containsSub p1.1 "<s>".data then
      let f := FindAnyBracketedText p1.1.length p1.1
      (f.1 ++ " ".data ++ f.2.2.1 ++ " ".data ++ f.2.2.2, true)
    else p1
  match matchLinkPattern p2.1 with
  | some (lead2, inner, rem2) =>
    (pipeSplit inner).map fun pr => finishEntry virt conseries pr.1 pr.2 lead2 rem2 p2.2
  | none => some (finishEntry virt conseries [] [] p2.1 [] p2.2)

/-- `ExtractConNameInfo` (ScanF3PagesForConInfo.py lines 417-525).  Returns `none`
when the ValueError of the `text2.split("|")` unpacking escapes. -/
def ExtractConNameInfo (nameText : String) (conseries : List String) :
    Option (List IndexTableSingleNameEntry) :=
  let s0 := ConvertHTMLishCharacters nameText.data
  let s1 := pyStrip (replaceSub s0.length "<br>".data " ".data s0)
  let s2 := removeQuoteRuns s1.length s1
  let s3 := if containsSub s2 "\x7b\x7b".data then replaceTemplates s2.length s2 else s2
  let virt := hasVirtualText s3
  let s4 := if virt then removeVirtual s3.length s3 else s3
  let names := SplitByTopLevelSlashes s4
  (mapOpt (fun name1 =>
      let q := RemoveTopBracketedText name1
      mapOpt (processName2 virt conseries) (SplitByTopLevelSlashes q.1))
    names).map List.flatten

/-- `FanzineDateRange` (external collaborator FanzineIssueSpecPackage), modelled
from the spec's DateEntry: start and end calendar dates, a cancellation flag and
the emptiness flag reported by the external parser. -/
structure FanzineDateRange where
  y1 : Nat
  m1 : Nat
  d1 : Nat
  y2 : Nat
  m2 : Nat
  d2 : Nat
  cancelled : Bool
  isNull : Bool
deriving DecidableEq

/-- The `re.sub("\(.*\)\s?$", "", datetext)` step of ExtractDateInfo (line 182):
when the text ends with `)` (possibly followed by one whitespace character) and
contains a `(`, everything from the first `(` on is removed. -/
def stripTrailingParen (l : List Char) : List Char :=
  let r := l.reverse
  let r2 := match r with
    | c :: rest => if c.isWhitespace then rest else r
    | [] => r
  match r2 with
  | c :: _ =>
    if c = ')' then
      match firstOcc "(".data l with
      | some i => l.take i
      | none => l
    else l
  | [] => l

/-- `re.findall("<s>.+?</s>", text)` together with `re.sub` of the same pattern
(ExtractDateInfo lines 193-196): the list of full matches and the text with the
matches removed.  A match runs from a `<s>` to the first `</s>` after it with a
non-empty interior. -/
def findStrikeouts (fuel : Nat) (l : List Char) : List (List Char) × List Char :=
  match fuel with
  | 0 => ([], l)
  | fuel + 1 =>
    match splitOnceAt "<s>".data l with
    | none => ([], l)
    | some (bef, aft) =>
      match (firstOcc "</s>".data (aft.drop 1)).map (· + 1) with
      | none => ([], l)
      | some i =>
        let inner := aft.take i
        let r := findStrikeouts fuel (aft.drop (i + 4))
        (("<s>".data ++ inner ++ "</s>".data) :: r.1, bef ++ r.2)

/-- `ExtractDateInfo` (ScanF3PagesForConInfo.py lines 177-222).  The external
date-range parser `FanzineDateRange().Match` is the collaborator parameter
`matchFn` (spec section 6, DateRangeParser). -/
def ExtractDateInfo (matchFn : String → FanzineDateRange) (datetext : String) :
    List FanzineDateRange :=
  let t0 := stripTrailingParen datetext.data
  let t1 := pyStrip (CompressWhitespace t0)
  let fs := findStrikeouts t1.length t1
  let rem := if fs.1 ≠ [] then pyStrip fs.2 else t1
  let ds1 := fs.1 ++ (if rem ≠ [] then [rem] else [])
  let ds := ds1.filter (· ≠ [])
  if ds = [] then []
  else
    (ds.map (fun d =>
      let cs := ScanForBracketedText d
      { matchFn (String.mk cs.2) with cancelled := cs.1 })).filter (fun dr => !dr.isNull)

/-- `LocalePage` (LocalePage.py lines 21-27). -/
structure LocalePage where
  pageName : String := ""
  displayName : String := ""
  redirect : String := ""
  isTaggedLocale : Bool := false
  nonPageName : String := ""
deriving DecidableEq

/-- `LocalePage.IsEmpty` (LocalePage.py lines 69-71). -/
def LocalePage.isEmpty (lp : LocalePage) : Bool :=
  lp.pageName == "" && lp.redirect == "" && lp.nonPageName == ""

/-- Modelled from the spec: `HelpersPackage.StripWikiBrackets` is imported by the
source but is not part of this repository; LocalePage.py line 31 documents it as
comparing "ignoring [[...]]", so we delete the bracket markers. -/
def stripWikiBrackets (s : String) : String :=
  String.mk (replaceSub s.data.length "]]".data []
    (replaceSub s.data.length "[[".data [] s.data))

/-- `LocalePage.__eq__` (LocalePage.py lines 30-39): field-wise comparison ignoring
wiki brackets. -/
def lpEq (a b : LocalePage) : Bool :=
  stripWikiBrackets a.pageName == stripWikiBrackets b.pageName &&
  stripWikiBrackets a.displayName == stripWikiBrackets b.displayName &&
  stripWikiBrackets a.redirect == stripWikiBrackets b.redirect &&
  (a.isTaggedLocale == b.isTaggedLocale) &&
  stripWikiBrackets a.nonPageName == stripWikiBrackets b.nonPageName

/-- `LocaleHandling.LocaleFromName` (LocalePage.py lines 617-620): look the name up
in the locale table, empty LocalePage when absent. -/
def LocaleFromName (locales : List (String × LocalePage)) (pagename : String) : LocalePage :=
  match locales.find? (fun p => p.1 == pagename) with
  | some p => p.2
  | none => {}

/-- `ConInstanceLink` (Conventions.py lines 152-158). -/
structure ConInstanceLink where
  link : String := ""
  text : String := ""
  cancelled : Bool := false
deriving DecidableEq

/-- `ConInstanceInfo` (Conventions.py lines 176-243). -/
structure ConInstanceInfo where
  cil : List ConInstanceLink
  seriesName : String
  displayName : String
  localePage : LocalePage
  dateRange : FanzineDateRange
  virtual : Bool
  cancelled : Bool
deriving DecidableEq

/-- The `ConInstanceInfo(Link=..., Text=..., DateRange=..., Locale=..., Virtual=...,
Cancelled=...)` constructor as called by the row scanner (Conventions.py lines
182-242 with string Link/Text).  `_displayName` stays `""`: the constructor tests
`kwds["DsiplayName"]` (sic, line 227) and the scanner never passes DisplayName;
a `True` DateRange cancellation is transferred onto the instance (lines 240-242). -/
def mkCII (locales : List (String × LocalePage)) (link text : String)
    (dr : FanzineDateRange) (locale : String) (virt canc : Bool) : ConInstanceInfo :=
  { cil := [{ link := link, text := text, cancelled := false }]
    seriesName := ""
    displayName := ""
    localePage := LocaleFromName locales locale
    dateRange := if dr.cancelled then { dr with cancelled := false } else dr
    virtual := virt
    cancelled := canc || dr.cancelled }

/-- `ConInstanceInfo.__eq__` (Conventions.py lines 257-267): date range, flags,
and the Text/Link of each ConInstanceLink; LocalePage is not compared. -/
def eqCII (a b : ConInstanceInfo) : Bool :=
  decide (a.dateRange = b.dateRange) && decide (a.cancelled = b.cancelled) &&
  decide (a.virtual = b.virtual) && decide (a.cil.length = b.cil.length) &&
  (List.zip a.cil b.cil).all fun p => decide (p.1.text = p.2.text) && decide (p.1.link = p.2.link)

/-- The `Conventions` registry state: `_conDict` as an insertion-ordered
association list from key to the list of instances stored under it.  (The
auxiliary `_setOfCIIs` always holds exactly the stored instances, because every
insertion goes through `__setitem__`; membership in it is therefore modelled by
`containsEq` over the stored instances.) -/
abbrev Conventions := List (String × List ConInstanceInfo)

/-- All stored instances, in `_conDict.values()` flattening order. -/
def flatValues (r : Conventions) : List ConInstanceInfo := (r.map Prod.snd).flatten

/-- `cii in self._setOfCIIs` (Conventions.py line 43). -/
def containsEq (r : Conventions) (c : ConInstanceInfo) : Bool :=
  (flatValues r).any fun y => eqCII c y

/-- `Conventions.__setitem__` (Conventions.py lines 27-29): append the instance to
the defaultdict list under the key. -/
def setItem : Conventions → String → ConInstanceInfo → Conventions
  | [], key, v => [(key, [v])]
  | (k, l) :: rest, key, v =>
    if k == key then (k, l ++ [v]) :: rest else (k, l) :: setItem rest key v

/-- Replace an instance's LocalePage (the mutation `hits[0].LocalePage=cii.LocalePage`). -/
def setLP (c : ConInstanceInfo) (lp : LocalePage) : ConInstanceInfo :=
  { c with localePage := lp }

/-- The merge step of `Conventions.Append` on one key's instance list: the first
`cii == y` hit gets the incoming LocalePage when the two differ and the stored
one is empty (Conventions.py lines 49-57); `none` when the list has no hit. -/
def mergeList (c : ConInstanceInfo) : List ConInstanceInfo → Option (List ConInstanceInfo)
  | [] => none
  | y :: ys =>
    if eqCII c y then
      some ((if !(lpEq y.localePage c.localePage) && y.localePage.isEmpty
             then setLP y c.localePage else y) :: ys)
    else (mergeList c ys).map (y :: ·)

/-- The merge step of `Conventions.Append` over the whole registry, hitting the
first match in `_conDict.values()` order.  (With no match anywhere, Python would
raise IndexError on `hits[0]`; that state is unreachable because `Append` only
merges after finding `cii` in `_setOfCIIs`.) -/
def mergeReg (c : ConInstanceInfo) : Conventions → Conventions
  | [] => []
  | (k, l) :: rest =>
    match mergeList c l with
    | some l2 => (k, l2) :: rest
    | none => (k, l) :: mergeReg c rest

/-- `Conventions.Append` (Conventions.py lines 38-58).  Note the `return` inside
the loop: the first instance not yet present is stored under `cii.DisplayName`
and the call returns at once; already-present instances merely merge location
information and the loop continues. -/
def Conventions.Append (r : Conventions) : List ConInstanceInfo → Conventions
  | [] => r
  | c :: cs =>
    if !(containsEq r c) then setItem r c.displayName c
    else Conventions.Append (if !(c.localePage.isEmpty) then mergeReg c r else r) cs

/-- Number of stored instances. -/
def storedCount (r : Conventions) : Nat := (flatValues r).length

/-- The side effect of reading `IndexTableNameEntry.DisplayNameMarkup`
(Conventions.py lines 102-112), executed by the scanner at line 83: when any
entry has a link, every entry's link is blanked and the first non-empty link is
written onto the first entry. -/
def DisplayNameMarkupEffect (names : List IndexTableSingleNameEntry) :
    List IndexTableSingleNameEntry :=
  match (names.filter (fun e => e.link != "")).head? with
  | none => names
  | some fl =>
    match names.map (fun e => { e with link := "" }) with
    | [] => []
    | e0 :: rest => { e0 with link := fl.link } :: rest

/-- The error logged at ScanF3PagesForConInfo.py line 127, naming the page and the
row verbatim. -/
def unhandledMsg (page rowTxt : String) (nNames nDates : Nat) : String :=
  "ScanF3PagesForConInfo() Name/date combinations not yet handled: " ++ page ++
    ": len(dateEntryList)=" ++ toString nDates ++ "  len(nameEntryList)=" ++
    toString nNames ++ "  row=" ++ rowTxt

/-- The per-row reconciliation of ScanF3PagesForConInfo (lines 106-127): returns
the constructed instances and the error messages logged by this stage.  Cases in
source order: no names (skip, info-level log only); equal counts (element-wise
pairing, line 110); one name with several dates (line 118); anything else is the
not-yet-handled error (line 127). -/
def reconcileLists (locales : List (String × LocalePage)) (page rowTxt : String)
    (names : List IndexTableSingleNameEntry) (dates : List FanzineDateRange)
    (location : String) : List ConInstanceInfo × List String :=
  if names.length = 0 then ([], [])
  else if names.length = dates.length then
    (List.zipWith (fun nel dtel =>
        mkCII locales nel.link nel.text dtel location nel.virtual
          (nel.cancelled || dtel.cancelled)) names dates, [])
  else
    match names with
    | nel :: rest =>
      if 1 < dates.length ∧ rest.length = 0 then
        (dates.map (fun dtel =>
            mkCII locales nel.link nel.text dtel location nel.virtual
              (nel.cancelled || dtel.cancelled)), [])
      else ([], [unhandledMsg page rowTxt (nel :: rest).length dates.length])
    | [] => ([], [])

/-- One table row as the scanner sees it. -/
structure RowInput where
  page : String
  rowTxt : String
  nameCell : String
  dateCell : String
  loc : String

/-- The row loop of `ScanF3PagesForConInfo` (lines 60-127) over already-located
cells: parse the name cell (an escaping ValueError aborts the whole scan,
modelled by `none`), run the DisplayNameMarkup side effect (line 83), parse the
date cell, reconcile, and `Append` each instance singleton-wise (lines 115/123),
accumulating error logs. -/
def scanRows (matchFn : String → FanzineDateRange) (locales : List (String × LocalePage))
    (conseries : List String) :
    List RowInput → Conventions → List String → Option (Conventions × List String)
  | [], reg, errs => some (reg, errs)
  | r :: rs, reg, errs =>
    match ExtractConNameInfo r.nameCell conseries with
    | none => none
    | some names0 =>
      let names := DisplayNameMarkupEffect names0
      let dates := ExtractDateInfo matchFn r.dateCell
      let res := reconcileLists locales r.page r.rowTxt names dates r.loc
      scanRows matchFn locales conseries rs
        (res.1.foldl (fun acc c => Conventions.Append acc [c]) reg) (errs ++ res.2)

/-- The storage key as the specification describes it, stated from the spec's
words for comparison with the code's key: "the instance's primary page name,
derived from the first non-empty Link, falling back to the first Text". -/
def specPrimaryPageName (c : ConInstanceInfo) : String :=
  match c.cil.find? (fun e => e.link != "") with
  | some e => e.link
  | none =>
    match c.cil with
    | e :: _ => e.text
    | [] => ""

/-- The scan loop of the spec's `SplitOutsideBrackets`, stated from the spec's
words for comparison with the code's splitter: "two independent nesting
counters, one for `[[ ]]` pairs and one for `< >` pairs; only a delimiter
occurrence where both counters are zero is treated as a split point". -/
def specSOBgo (sq ang : Int) (delim : Char) (cur : List Char) :
    List Char → List (List Char)
  | [] => [cur.reverse]
  | '[' :: '[' :: cs => specSOBgo (sq + 1) ang delim ('[' :: '[' :: cur) cs
  | ']' :: ']' :: cs => specSOBgo (sq - 1) ang delim (']' :: ']' :: cur) cs
  | '<' :: cs => specSOBgo sq (ang + 1) delim ('<' :: cur) cs
  | '>' :: cs => specSOBgo sq (ang - 1) delim ('>' :: cur) cs
  | c :: cs =>
    if c = delim ∧ sq = 0 ∧ ang = 0 then cur.reverse :: specSOBgo sq ang delim [] cs
    else specSOBgo sq ang delim (c :: cur) cs

/-- The spec's `SplitOutsideBrackets(text, delimiter)`, stated from the spec's
words (section 4.2) for comparison with `SplitByTopLevelSlashes`. -/
def specSplitOutsideBrackets (l : List Char) (delim : Char) : List (List Char) :=
  specSOBgo 0 0 delim [] l

/-- A concrete stand-in for the external date-range parser collaborator
(spec section 6, DateRangeParser), mapping the date strings used in the
concrete rows below to their ranges and everything else to an empty range. -/
def testMatch (s : String) : FanzineDateRange :=
  if s = "July 2-5, 2020" then ⟨2020, 7, 2, 2020, 7, 5, false, false⟩
  else if s = "November 26-28, 2021" then ⟨2021, 11, 26, 2021, 11, 28, false, false⟩
  else if s = "April 1, 2022" then ⟨2022, 4, 1, 2022, 4, 1, false, false⟩
  else if s = "April 2, 2022" then ⟨2022, 4, 2, 2022, 4, 2, false, false⟩
  else if s = "April 3, 2022" then ⟨2022, 4, 3, 2022, 4, 3, false, false⟩
  else ⟨0, 0, 0, 0, 0, 0, false, true⟩

/-- The name cell of the Westercon 73 / Loscon 47 corpus row (after `<br>`
normalization), as quoted by the spec. -/
def westerconNameCell : String := "<s>[[Westercon 73]]</s> / [[Loscon 47]]"

/-- The date cell of the Westercon 73 / Loscon 47 corpus row. -/
def westerconDateCell : String := "<s>July 2-5, 2020</s> November 26-28, 2021"

/-- The Westercon 73 / Loscon 47 row as the scanner sees it. -/
def westerconRow : RowInput :=
  ⟨"Westercon", westerconNameCell ++ " || " ++ westerconDateCell,
   westerconNameCell, westerconDateCell, ""⟩

/-- A name cell whose top-level strikeout wrapper encloses a slash-joined group. -/
def strikeGroupCell : String := "<s>[[A]] / [[B]]</s>"

/-- A name cell with a virtual annotation. -/
def virtualNameCell : String := "[[X]] (virtual)"

/-- A date cell holding exactly one struck-out date. -/
def cancelledDateCell : String := "<s>July 2-5, 2020</s>"

/-- A name cell whose bracketed interior holds two `|` characters. -/
def multiPipeCell : String := "[[a|b|c]]"

/-- A name cell with two top-level alternatives. -/
def altNamesCell : String := "[[A]] / [[B]]"

/-- A date cell yielding three date entries. -/
def threeDatesCell : String := "<s>April 1, 2022</s> <s>April 2, 2022</s> April 3, 2022"

/-- The DeepSouthCon 15 name of the spec's split example (the apostrophe built
explicitly). -/
def dscChars : List Char :=
  "[[DeepSouthCon 15|DeepSouthCon 15 / B".data ++ [apos] ++ "hamacon 1]]".data

/-- A sample date range. -/
def sampleDR1 : FanzineDateRange := ⟨2020, 1, 1, 2020, 1, 2, false, false⟩

/-- A second, distinct sample date range. -/
def sampleDR2 : FanzineDateRange := ⟨2021, 2, 1, 2021, 2, 2, false, false⟩

/-- A third, distinct sample date range. -/
def sampleDR3 : FanzineDateRange := ⟨2022, 3, 1, 2022, 3, 2, false, false⟩

/-- A sample instance as the row scanner constructs them. -/
def conA : ConInstanceInfo := mkCII [] "Acon" "Acon" sampleDR1 "" false false

/-- A second sample instance, not `eqCII`-equal to `conA`. -/
def conB : ConInstanceInfo := mkCII [] "Bcon" "Bcon" sampleDR2 "" false false

/-- A third sample instance, `eqCII`-distinct from both. -/
def conC : ConInstanceInfo := mkCII [] "Ccon" "Ccon" sampleDR3 "" false false

/-- A non-empty locale. -/
def locBoston : LocalePage := { pageName := "Boston, MA", isTaggedLocale := true }

/-- `conA` with the non-empty locale attached (an otherwise-identical instance). -/
def conALoc : ConInstanceInfo := setLP conA locBoston

/-- A registry holding exactly `conA`. -/
def regA : Conventions := Conventions.Append [] [conA]

/-- The instance built from the Westercon 73 half of the corpus row. -/
def west73cii : ConInstanceInfo :=
  mkCII [] "Westercon 73" "Westercon 73" ⟨2020, 7, 2, 2020, 7, 5, true, false⟩ "" false true

/-- Two sample parsed name entries (a two-alternative row). -/
def entryA : IndexTableSingleNameEntry :=
  ⟨"A", "A", "", " ", false, false⟩

/-- Second sample parsed name entry. -/
def entryB : IndexTableSingleNameEntry :=
  ⟨"B", "B", " ", "", false, false⟩

/-! ### Registry lemmas -/

theorem zip_self_map (l : List α) : List.zip l l = l.map (fun a => (a, a)) := by
  induction l with
  | nil => rfl
  | cons a as ih => simp [List.zip_cons_cons, ih, List.map_cons]

theorem eqCII_refl (c : ConInstanceInfo) : eqCII c c = true := by
  simp [eqCII, zip_self_map, List.all_map, List.all_eq_true]

theorem lpEq_refl (a : LocalePage) : lpEq a a = true := by
  simp [lpEq]

theorem eqCII_setLP (z y : ConInstanceInfo) (lp : LocalePage) :
    eqCII z (setLP y lp) = eqCII z y := rfl

theorem flatValues_cons (k : String) (l : List ConInstanceInfo) (rest : Conventions) :
    flatValues ((k, l) :: rest) = l ++ flatValues rest := by
  simp [flatValues]

theorem mergeList_any (c : ConInstanceInfo) (l l2 : List ConInstanceInfo)
    (h : mergeList c l = some l2) (z : ConInstanceInfo) :
    l2.any (fun y => eqCII z y) = l.any (fun y => eqCII z y) := by
  induction l generalizing l2 with
  | nil => simp [mergeList] at h
  | cons y ys ih =>
    by_cases hc : eqCII c y = true
    · rw [mergeList, if_pos hc] at h
      injection h with h
      subst h
      simp only [List.any_cons]
      congr 1
      by_cases hb : (!(lpEq y.localePage c.localePage) && y.localePage.isEmpty) = true
      · simp [hb, eqCII_setLP]
      · simp [hb]
    · rw [mergeList, if_neg hc] at h
      cases hm : mergeList c ys with
      | none => rw [hm] at h; simp at h
      | some l2a =>
        rw [hm] at h
        simp only [Option.map_some'] at h
        injection h with h
        subst h
        simp [List.any_cons, ih l2a hm]

theorem mergeList_length (c : ConInstanceInfo) (l l2 : List ConInstanceInfo)
    (h : mergeList c l = some l2) : l2.length = l.length := by
  induction l generalizing l2 with
  | nil => simp [mergeList] at h
  | cons y ys ih =>
    by_cases hc : eqCII c y = true
    · rw [mergeList, if_pos hc] at h
      injection h with h
      subst h
      simp
    · rw [mergeList, if_neg hc] at h
      cases hm : mergeList c ys with
      | none => rw [hm] at h; simp at h
      | some l2a =>
        rw [hm] at h
        simp only [Option.map_some'] at h
        injection h with h
        subst h
        simp [ih l2a hm]

theorem containsEq_mergeReg (c : ConInstanceInfo) (r : Conventions) (z : ConInstanceInfo) :
    containsEq (mergeReg c r) z = containsEq r z := by
  induction r with
  | nil => rfl
  | cons p rest ih =>
    obtain ⟨k, l⟩ := p
    rw [mergeReg]
    cases h : mergeList c l with
    | some l2 =>
      simp only [containsEq, flatValues_cons, List.any_append]
      rw [mergeList_any c l l2 h z]
    | none =>
      simp only [containsEq, flatValues_cons, List.any_append] at ih ⊢
      rw [ih]

theorem storedCount_mergeReg (c : ConInstanceInfo) (r : Conventions) :
    storedCount (mergeReg c r) = storedCount r := by
  induction r with
  | nil => rfl
  | cons p rest ih =>
    obtain ⟨k, l⟩ := p
    rw [mergeReg]
    cases h : mergeList c l with
    | some l2 =>
      simp only [storedCount, flatValues_cons, List.length_append]
      rw [mergeList_length c l l2 h]
    | none =>
      simp only [storedCount, flatValues_cons, List.length_append] at ih ⊢
      rw [ih]

theorem storedCount_setItem (r : Conventions) (k : String) (v : ConInstanceInfo) :
    storedCount (setItem r k v) = storedCount r + 1 := by
  induction r with
  | nil => rfl
  | cons p rest ih =>
    obtain ⟨k0, l⟩ := p
    rw [setItem]
    by_cases hk : (k0 == k) = true
    · simp [hk, storedCount, flatValues_cons]
      omega
    · simp only [hk]
      simp only [Bool.false_eq_true, if_false, storedCount, flatValues_cons,
        List.length_append] at ih ⊢
      omega

theorem containsEq_setItem (r : Conventions) (k : String) (v z : ConInstanceInfo) :
    containsEq (setItem r k v) z = (containsEq r z || eqCII z v) := by
  induction r with
  | nil => simp [setItem, containsEq, flatValues]
  | cons p rest ih =>
    obtain ⟨k0, l⟩ := p
    rw [setItem]
    by_cases hk : (k0 == k) = true
    · simp only [hk, if_true, containsEq, flatValues_cons, List.any_append, List.any_cons,
        List.any_nil]
      cases l.any (fun y => eqCII z y) <;> cases (flatValues rest).any (fun y => eqCII z y) <;>
        cases eqCII z v <;> rfl
    · simp only [hk, Bool.false_eq_true, if_false, containsEq, flatValues_cons,
        List.any_append] at ih ⊢
      rw [ih]
      cases l.any (fun y => eqCII z y) <;> rfl

/-- Claim C10: when `Conventions.Append` is called with a list of instances, it
returns immediately after storing the first instance not already present: the
result does not depend on the elements after that instance (they are neither
stored nor examined), and exactly one instance is added to the registry. -/
theorem conventions_append_early_return
    (reg : Conventions) (l1 : List ConInstanceInfo) (x : ConInstanceInfo)
    (l2 : List ConInstanceInfo)
    (hdup : ∀ y ∈ l1, containsEq reg y = true)
    (hnew : containsEq reg x = false) :
    Conventions.Append reg (l1 ++ x :: l2) = Conventions.Append reg (l1 ++ [x]) ∧
    storedCount (Conventions.Append reg (l1 ++ x :: l2)) = storedCount reg + 1 ∧
    containsEq (Conventions.Append reg (l1 ++ x :: l2)) x = true := by
  induction l1 generalizing reg with
  | nil =>
    simp only [List.nil_append]
    rw [Conventions.Append, Conventions.Append, hnew]
    refine ⟨rfl, ?_, ?_⟩
    · simp [storedCount_setItem]
    · simp [containsEq_setItem, eqCII_refl]
  | cons y ys ih =>
    have hy : containsEq reg y = true := hdup y (by simp)
    simp only [List.cons_append]
    rw [Conventions.Append, Conventions.Append, hy]
    simp only [Bool.not_true, Bool.false_eq_true, if_false]
    cases hb : y.localePage.isEmpty with
    | true =>
      simp only [hb, Bool.not_true, Bool.false_eq_true, if_false]
      exact ih reg (fun z hz => hdup z (by simp [hz])) hnew
    | false =>
      simp only [hb, Bool.not_false, if_true]
      have ihd : ∀ z ∈ ys, containsEq (mergeReg y reg) z = true := fun z hz => by
        rw [containsEq_mergeReg]
        exact hdup z (by simp [hz])
      have ihn : containsEq (mergeReg y reg) x = false := by
        rw [containsEq_mergeReg]
        exact hnew
      obtain ⟨e1, e2, e3⟩ := ih (mergeReg y reg) ihd ihn
      exact ⟨e1, by rw [e2, storedCount_mergeReg], e3⟩

/-- Witness for C10 at a concrete registry and list. -/
theorem conventions_append_early_return_witness :
    Conventions.Append regA [conA, conB, conC] = Conventions.Append regA [conA, conB] ∧
    storedCount (Conventions.Append regA [conA, conB, conC]) = storedCount regA + 1 ∧
    containsEq (Conventions.Append regA [conA, conB, conC]) conB = true :=
  conventions_append_early_return regA [conA] conB [conC] (by decide) (by decide)

/-- Claim C2: registering the same instance twice leaves exactly one stored
instance, and a second registration of an `eqCII`-identical instance carrying a
non-empty location (differing, under the code's bracket-insensitive locale
equality, from the stored empty one) updates the stored instance's location in
place instead of creating a second entry. -/
theorem conventions_append_dedup_and_merge
    (c c1 c2 : ConInstanceInfo)
    (h : eqCII c2 c1 = true)
    (h1 : c1.localePage.isEmpty = true)
    (h2 : c2.localePage.isEmpty = false)
    (h3 : lpEq c1.localePage c2.localePage = false) :
    storedCount (Conventions.Append (Conventions.Append [] [c]) [c]) = 1 ∧
    Conventions.Append (Conventions.Append [] [c1]) [c2]
      = [(c1.displayName, [setLP c1 c2.localePage])] := by
  constructor
  · have hfirst : Conventions.Append [] [c] = [(c.displayName, [c])] := rfl
    rw [hfirst, Conventions.Append]
    have hc1 : containsEq [(c.displayName, [c])] c = true := by
      simp [containsEq, flatValues, eqCII_refl]
    rw [hc1]
    simp only [Bool.not_true, Bool.false_eq_true, if_false]
    have hmerge : mergeReg c [(c.displayName, [c])] = [(c.displayName, [c])] := by
      simp [mergeReg, mergeList, eqCII_refl, lpEq_refl]
    cases hb : c.localePage.isEmpty with
    | true =>
      simp only [hb, Bool.not_true, Bool.false_eq_true, if_false]
      rw [Conventions.Append]
      rfl
    | false =>
      simp only [hb, Bool.not_false, if_true]
      rw [hmerge, Conventions.Append]
      rfl
  · have hfirst : Conventions.Append [] [c1] = [(c1.displayName, [c1])] := rfl
    rw [hfirst, Conventions.Append]
    have hc1 : containsEq [(c1.displayName, [c1])] c2 = true := by
      simp [containsEq, flatValues, h]
    rw [hc1]
    simp only [Bool.not_true, Bool.false_eq_true, if_false, h2, Bool.not_false, if_true]
    have hmerge : mergeReg c2 [(c1.displayName, [c1])]
        = [(c1.displayName, [setLP c1 c2.localePage])] := by
      simp [mergeReg, mergeList, h, h1, h3]
    rw [hmerge, Conventions.Append]

/-- Witness for C2 at concrete instances (`conA` twice; then `conA` followed by
the same instance carrying the Boston locale). -/
theorem conventions_append_dedup_and_merge_witness :
    storedCount (Conventions.Append (Conventions.Append [] [conA]) [conA]) = 1 ∧
    Conventions.Append (Conventions.Append [] [conA]) [conALoc]
      = [(conA.displayName, [setLP conA conALoc.localePage])] :=
  conventions_append_dedup_and_merge conA conA conALoc (by decide) (by decide) (by decide)
    (by decide)

/-! ### Splitter lemmas -/

theorem slashLocsGo_open (d : Int) (i : Nat) (cs : List Char) :
    slashLocsGo d i ('[' :: cs) = slashLocsGo (d + 1) (i + 1) cs := by
  rw [slashLocsGo]
  simp

theorem slashLocsGo_close (d : Int) (i : Nat) (cs : List Char) :
    slashLocsGo d i (']' :: cs) = slashLocsGo (d - 1) (i + 1) cs := by
  rw [slashLocsGo]
  simp

theorem slashLocsGo_slash (i : Nat) (cs : List Char) :
    slashLocsGo 0 i ('/' :: cs) = i :: slashLocsGo 0 (i + 1) cs := by
  rw [slashLocsGo]
  simp

theorem slashLocsGo_other (d : Int) (i : Nat) (c : Char) (cs : List Char)
    (h1 : ¬(c = '[')) (h2 : ¬(c = ']')) (h3 : ¬(c = '/' ∧ d = 0)) :
    slashLocsGo d i (c :: cs) = slashLocsGo d (i + 1) cs := by
  rw [slashLocsGo, if_neg h1, if_neg h2, if_neg h3]

theorem sqDepth_take_cons_open (k : Nat) (cs : List Char) :
    sqDepth (List.take (k + 1) ('[' :: cs)) = 1 + sqDepth (List.take k cs) := by
  simp [sqDepth]

theorem sqDepth_take_cons_close (k : Nat) (cs : List Char) :
    sqDepth (List.take (k + 1) (']' :: cs)) = -1 + sqDepth (List.take k cs) := by
  simp [sqDepth]

theorem sqDepth_take_cons_other (k : Nat) (c : Char) (cs : List Char)
    (h1 : ¬(c = '[')) (h2 : ¬(c = ']')) :
    sqDepth (List.take (k + 1) (c :: cs)) = sqDepth (List.take k cs) := by
  simp [sqDepth, h1, h2]

theorem slashLocsGo_mem (l : List Char) : ∀ (d : Int) (i j : Nat),
    j ∈ slashLocsGo d i l ↔
      ∃ k, l.get? k = some '/' ∧ d + sqDepth (l.take k) = 0 ∧ j = i + k := by
  induction l with
  | nil =>
    intro d i j
    simp [slashLocsGo]
  | cons c cs ih =>
    intro d i j
    by_cases h1 : c = '['
    · subst h1
      rw [slashLocsGo_open, ih (d + 1) (i + 1) j]
      constructor
      · rintro ⟨k, hk1, hk2, hk3⟩
        refine ⟨k + 1, by simpa using hk1, ?_, by omega⟩
        rw [sqDepth_take_cons_open]
        omega
      · rintro ⟨k, hk1, hk2, hk3⟩
        cases k with
        | zero => simp at hk1
        | succ k =>
          refine ⟨k, by simpa using hk1, ?_, by omega⟩
          rw [sqDepth_take_cons_open] at hk2
          omega
    · by_cases h2 : c = ']'
      · subst h2
        rw [slashLocsGo_close, ih (d - 1) (i + 1) j]
        constructor
        · rintro ⟨k, hk1, hk2, hk3⟩
          refine ⟨k + 1, by simpa using hk1, ?_, by omega⟩
          rw [sqDepth_take_cons_close]
          omega
        · rintro ⟨k, hk1, hk2, hk3⟩
          cases k with
          | zero => simp at hk1
          | succ k =>
            refine ⟨k, by simpa using hk1, ?_, by omega⟩
            rw [sqDepth_take_cons_close] at hk2
            omega
      · by_cases h3 : c = '/' ∧ d = 0
        · obtain ⟨h3c, h3d⟩ := h3
          subst h3c
          subst h3d
          rw [slashLocsGo_slash, List.mem_cons, ih 0 (i + 1) j]
          constructor
          · rintro (rfl | ⟨k, hk1, hk2, hk3⟩)
            · exact ⟨0, by simp, by simp [sqDepth], by omega⟩
            · refine ⟨k + 1, by simpa using hk1, ?_, by omega⟩
              rw [sqDepth_take_cons_other k _ cs h1 h2]
              omega
          · rintro ⟨k, hk1, hk2, hk3⟩
            cases k with
            | zero => left; omega
            | succ k =>
              right
              refine ⟨k, by simpa using hk1, ?_, by omega⟩
              rw [sqDepth_take_cons_other k _ cs h1 h2] at hk2
              omega
        · rw [slashLocsGo_other d i c cs h1 h2 h3, ih d (i + 1) j]
          constructor
          · rintro ⟨k, hk1, hk2, hk3⟩
            refine ⟨k + 1, by simpa using hk1, ?_, by omega⟩
            rw [sqDepth_take_cons_other k c cs h1 h2]
            omega
          · rintro ⟨k, hk1, hk2, hk3⟩
            cases k with
            | zero =>
              exfalso
              simp only [List.get?_cons_zero, Option.some.injEq] at hk1
              simp only [List.take_zero, sqDepth] at hk2
              exact h3 ⟨hk1, by omega⟩
            | succ k =>
              refine ⟨k, by simpa using hk1, ?_, by omega⟩
              rw [sqDepth_take_cons_other k c cs h1 h2] at hk2
              omega

theorem piecesFrom_length (l : List Char) : ∀ (js : List Nat) (s : Nat),
    (piecesFrom l s js).length = js.length + 1 := by
  intro js
  induction js with
  | nil => intro s; rfl
  | cons j rest ih => intro s; simp [piecesFrom, ih]

/-- Claim C7 counterexample: in `"</s>"` the only `/` sits inside a `< >` pair
(the spec's angle-bracket counter is 1 there, so the spec's splitter keeps the
string whole), yet the code's `SplitByTopLevelSlashes` splits there because it
tracks only square brackets. -/
theorem split_slash_inside_angle_tag :
    SplitByTopLevelSlashes "</s>".data = ["<".data, "s>".data] ∧
    specSplitOutsideBrackets "</s>".data '/' = ["</s>".data] ∧
    SplitByTopLevelSlashes "</s>".data ≠ specSplitOutsideBrackets "</s>".data '/' := by
  refine ⟨by decide, by decide, by decide⟩

/-- Claim C7 (amended): `SplitByTopLevelSlashes` records a split point exactly at
the positions holding `/` where the single square-bracket counter (count of `[`
minus count of `]` so far, angle brackets ignored) is zero; the result always
has one more element than there are split points (hence at least one element);
and the DeepSouthCon example is returned as a single element. -/
theorem split_top_level_slashes_square_only :
    (∀ (l : List Char) (j : Nat),
        j ∈ slashLocs l ↔ (l.get? j = some '/' ∧ sqDepth (l.take j) = 0)) ∧
    (∀ l : List Char,
        (SplitByTopLevelSlashes l).length = (slashLocs l).length + 1) ∧
    (∀ l : List Char, SplitByTopLevelSlashes l ≠ []) ∧
    SplitByTopLevelSlashes dscChars = [dscChars] := by
  have hmem : ∀ (l : List Char) (j : Nat),
      j ∈ slashLocs l ↔ (l.get? j = some '/' ∧ sqDepth (l.take j) = 0) := by
    intro l j
    rw [slashLocs, slashLocsGo_mem l 0 0 j]
    constructor
    · rintro ⟨k, hk1, hk2, hk3⟩
      have : j = k := by omega
      subst this
      exact ⟨hk1, by omega⟩
    · rintro ⟨hj1, hj2⟩
      exact ⟨j, hj1, by omega, by omega⟩
  have hlen : ∀ l : List Char,
      (SplitByTopLevelSlashes l).length = (slashLocs l).length + 1 := by
    intro l
    rw [SplitByTopLevelSlashes]
    cases h : slashLocs l with
    | nil => rfl
    | cons j rest => rw [piecesFrom_length]
  refine ⟨hmem, hlen, ?_, by decide⟩
  intro l hcon
  have := hlen l
  rw [hcon] at this
  simp at this

/-! ### Name-parser entry lemmas -/

theorem mapOpt_mem {f : α → Option β} :
    ∀ (l : List α) (r : List β), mapOpt f l = some r →
      ∀ y ∈ r, ∃ x ∈ l, f x = some y := by
  intro l
  induction l with
  | nil =>
    intro r h y hy
    rw [mapOpt] at h
    injection h with h
    subst h
    simp at hy
  | cons a as ih =>
    intro r h y hy
    rw [mapOpt] at h
    cases hfa : f a with
    | none => rw [hfa] at h; simp at h
    | some b =>
      rw [hfa] at h
      cases hm : mapOpt f as with
      | none => rw [hm] at h; simp at h
      | some rs =>
        rw [hm] at h
        simp only [Option.map_some'] at h
        injection h with h
        subst h
        rcases List.mem_cons.mp hy with rfl | hy2
        · exact ⟨a, by simp, hfa⟩
        · obtain ⟨x, hx, hfx⟩ := ih rs hm y hy2
          exact ⟨x, by simp [hx], hfx⟩

theorem finishEntry_flag (virt : Bool) (conseries : List String)
    (link2 text2 lead2 rem2 : List Char) (c2 : Bool) :
    (finishEntry virt conseries link2 text2 lead2 rem2 c2).virtual = true →
    (finishEntry virt conseries link2 text2 lead2 rem2 c2).cancelled = false := by
  cases c2 <;> simp [finishEntry]

theorem processName2_flag (virt : Bool) (conseries : List String) (name2 : List Char)
    (e : IndexTableSingleNameEntry) (h : processName2 virt conseries name2 = some e) :
    e.virtual = true → e.cancelled = false := by
  rw [processName2] at h
  cases hm : matchLinkPattern
      (if containsSub (RemoveTopBracketedText name2).1 "<s>".data = true then
        ((FindAnyBracketedText (RemoveTopBracketedText name2).1.length
              (RemoveTopBracketedText name2).1).1 ++
            " ".data ++
            (FindAnyBracketedText (RemoveTopBracketedText name2).1.length
                  (RemoveTopBracketedText name2).1).2.2.1 ++
            " ".data ++
            (FindAnyBracketedText (RemoveTopBracketedText name2).1.length
                  (RemoveTopBracketedText name2).1).2.2.2,
          true)
      else (RemoveTopBracketedText name2)).1 with
  | none =>
    rw [hm] at h
    simp only [] at h
    injection h with h
    subst h
    exact finishEntry_flag _ _ _ _ _ _ _
  | some t =>
    obtain ⟨lead2, inner, rem2⟩ := t
    rw [hm] at h
    simp only [] at h
    cases hp : pipeSplit inner with
    | none => rw [hp] at h; simp at h
    | some pr =>
      rw [hp] at h
      simp only [Option.map_some'] at h
      injection h with h
      subst h
      exact finishEntry_flag _ _ _ _ _ _ _

theorem extract_entries_flag (nameText : String) (conseries : List String)
    (names : List IndexTableSingleNameEntry)
    (h : ExtractConNameInfo nameText conseries = some names) :
    ∀ e ∈ names, e.virtual = true → e.cancelled = false := by
  rw [ExtractConNameInfo] at h
  rw [Option.map_eq_some'] at h
  obtain ⟨ll, hll, hflat⟩ := h
  subst hflat
  intro e he hv
  obtain ⟨lsub, hlsub, he2⟩ := List.mem_flatten.mp he
  obtain ⟨name1, hn1, hinner⟩ := mapOpt_mem _ ll hll lsub hlsub
  simp only [] at hinner
  obtain ⟨name2, hn2, hpn⟩ := mapOpt_mem _ lsub hinner e he2
  exact processName2_flag _ conseries name2 e hpn hv

theorem mem_zipWith_pair {f : α → β → γ} :
    ∀ {as : List α} {bs : List β} {x : γ}, x ∈ List.zipWith f as bs →
      ∃ a, a ∈ as ∧ ∃ b, b ∈ bs ∧ x = f a b := by
  intro as
  induction as with
  | nil => intro bs x hx; simp at hx
  | cons a as ih =>
    intro bs x hx
    cases bs with
    | nil => simp at hx
    | cons b bs =>
      rw [List.zipWith_cons_cons, List.mem_cons] at hx
      rcases hx with rfl | hx2
      · exact ⟨a, by simp, b, by simp, rfl⟩
      · obtain ⟨a2, ha2, b2, hb2, rfl⟩ := ih hx2
        exact ⟨a2, by simp [ha2], b2, by simp [hb2], rfl⟩

theorem mem_DNME (names : List IndexTableSingleNameEntry) (e : IndexTableSingleNameEntry)
    (he : e ∈ DisplayNameMarkupEffect names) :
    ∃ e0 ∈ names, e.cancelled = e0.cancelled ∧ e.virtual = e0.virtual := by
  rw [DisplayNameMarkupEffect] at he
  cases hf : (names.filter (fun e => e.link != "")).head? with
  | none =>
    rw [hf] at he
    exact ⟨e, he, rfl, rfl⟩
  | some fl =>
    rw [hf] at he
    cases hm : names.map (fun e => { e with link := "" }) with
    | nil =>
      rw [hm] at he
      simp at he
    | cons e0 rest =>
      rw [hm] at he
      cases names with
      | nil => simp at hm
      | cons n0 ns =>
        simp only [List.map_cons] at hm
        injection hm with hm1 hm2
        subst hm1
        subst hm2
        rcases List.mem_cons.mp he with rfl | he2
        · exact ⟨n0, by simp, rfl, rfl⟩
        · obtain ⟨n, hn, rfl⟩ := List.mem_map.mp he2
          exact ⟨n, by simp [hn], rfl, rfl⟩

theorem DNME_length (names : List IndexTableSingleNameEntry) :
    (DisplayNameMarkupEffect names).length = names.length := by
  rw [DisplayNameMarkupEffect]
  cases hf : (names.filter (fun e => e.link != "")).head? with
  | none => rfl
  | some fl =>
    cases hm : names.map (fun e => { e with link := "" }) with
    | nil =>
      have hnil : names = [] := by simpa using hm
      subst hnil
      rfl
    | cons e0 rest =>
      have := congrArg List.length hm
      simpa using this.symm

theorem mkCII_virtual (locales : List (String × LocalePage)) (link text : String)
    (dr : FanzineDateRange) (locale : String) (virt canc : Bool) :
    (mkCII locales link text dr locale virt canc).virtual = virt := by
  rw [mkCII]

theorem mkCII_cancelled (locales : List (String × LocalePage)) (link text : String)
    (dr : FanzineDateRange) (locale : String) (virt canc : Bool) :
    (mkCII locales link text dr locale virt canc).cancelled = (canc || dr.cancelled) := by
  rw [mkCII]

/-- The unhandled-cardinality branch of the reconciler, shared reasoning: with a
non-empty name list whose length differs from the date list's and which is not
the one-name-many-dates shape, the reconciler emits nothing and logs exactly the
one error naming the page and the row. -/
theorem reconcile_error_branch (locales : List (String × LocalePage)) (page rowTxt : String)
    (names : List IndexTableSingleNameEntry) (dates : List FanzineDateRange) (loc : String)
    (h0 : names ≠ []) (h1 : names.length ≠ dates.length)
    (h2 : ¬(names.length = 1 ∧ 1 < dates.length)) :
    reconcileLists locales page rowTxt names dates loc
      = ([], [unhandledMsg page rowTxt names.length dates.length]) := by
  cases names with
  | nil => exact absurd rfl h0
  | cons nel rest =>
    rw [reconcileLists]
    have hlen0 : ¬((nel :: rest).length = 0) := by simp
    rw [if_neg hlen0, if_neg h1]
    have hcond : ¬(1 < dates.length ∧ rest.length = 0) := by
      rintro ⟨hd, hr⟩
      exact h2 ⟨by simp [hr], hd⟩
    rw [if_neg hcond]

/-- Claim C4 (amended): name parsing never marks a cancelled name virtual
(`Virtual = cell_virtual and not Cancelled`), so a reconciled instance that is
both Virtual and Cancelled can only have acquired the cancellation from its
paired date entry: some date entry of the row is cancelled.  (The counterexample
`cancelled_and_virtual_instance` shows such doubly-flagged instances do occur,
refuting the claim that cancellation always clears the virtual flag.) -/
theorem virtual_instance_cancelled_only_by_date
    (nameCell : String) (conseries : List String) (names : List IndexTableSingleNameEntry)
    (hp : ExtractConNameInfo nameCell conseries = some names)
    (locales : List (String × LocalePage)) (page rowTxt loc : String)
    (dates : List FanzineDateRange) (inst : ConInstanceInfo)
    (hm : inst ∈ (reconcileLists locales page rowTxt
        (DisplayNameMarkupEffect names) dates loc).1)
    (hv : inst.virtual = true) (hc : inst.cancelled = true) :
    dates.any (fun d => d.cancelled) = true := by
  have hflag : ∀ e ∈ DisplayNameMarkupEffect names, e.virtual = true → e.cancelled = false := by
    intro e he hev
    obtain ⟨e0, he0, hcanc, hvirt⟩ := mem_DNME names e he
    rw [hcanc]
    exact extract_entries_flag nameCell conseries names hp e0 he0 (hvirt ▸ hev)
  obtain ⟨ns, hns⟩ : ∃ ns, DisplayNameMarkupEffect names = ns := ⟨_, rfl⟩
  rw [hns] at hm hflag
  rw [reconcileLists.eq_def] at hm
  by_cases hz : ns.length = 0
  · rw [if_pos hz] at hm
    simp at hm
  · rw [if_neg hz] at hm
    by_cases heq : ns.length = dates.length
    · rw [if_pos heq] at hm
      simp only [] at hm
      obtain ⟨nel, hnel, dtel, hdtel, rfl⟩ := mem_zipWith_pair hm
      simp only [mkCII_virtual] at hv
      simp only [mkCII_cancelled] at hc
      have hnc : nel.cancelled = false := hflag nel hnel hv
      rw [hnc] at hc
      simp only [Bool.false_or, Bool.or_self] at hc
      exact List.any_eq_true.mpr ⟨dtel, hdtel, by simp [hc]⟩
    · rw [if_neg heq] at hm
      cases ns with
      | nil => simp at hz
      | cons nel rest =>
        simp only [] at hm
        by_cases hcond : 1 < dates.length ∧ rest.length = 0
        · rw [if_pos hcond] at hm
          simp only [] at hm
          obtain ⟨dtel, hdtel, rfl⟩ := List.mem_map.mp hm
          simp only [mkCII_virtual] at hv
          simp only [mkCII_cancelled] at hc
          have hnc : nel.cancelled = false := hflag nel (by simp) hv
          rw [hnc] at hc
          simp only [Bool.false_or, Bool.or_self] at hc
          exact List.any_eq_true.mpr ⟨dtel, hdtel, by simp [hc]⟩
        · rw [if_neg hcond] at hm
          simp at hm

/-- Witness for C4's amended theorem at the concrete virtual row. -/
theorem virtual_instance_cancelled_only_by_date_witness :
    ExtractConNameInfo virtualNameCell [] = some [⟨"X", "X", "", " ", false, true⟩] ∧
    List.any [(⟨2020, 7, 2, 2020, 7, 5, true, false⟩ : FanzineDateRange)]
      (fun d => d.cancelled) = true :=
  ⟨by decide,
   virtual_instance_cancelled_only_by_date virtualNameCell [] [⟨"X", "X", "", " ", false, true⟩]
     (by decide) [] "P" "R" "" [⟨2020, 7, 2, 2020, 7, 5, true, false⟩]
     (mkCII [] "X" "X" ⟨2020, 7, 2, 2020, 7, 5, true, false⟩ "" true true)
     (by decide) (by decide) (by decide)⟩

/-- Claim C4 counterexample: the name cell `[[X]] (virtual)` paired with the
cancelled date `<s>July 2-5, 2020</s>` reconciles to an instance with
`Cancelled = true` and `Virtual = true` simultaneously — cancellation coming
from the date does not clear the virtual flag. -/
theorem cancelled_and_virtual_instance :
    (match ExtractConNameInfo virtualNameCell [] with
     | some names =>
        ((reconcileLists [] "P" "R" (DisplayNameMarkupEffect names)
            (ExtractDateInfo testMatch cancelledDateCell) "").1).map
          (fun c => (c.cancelled, c.virtual))
     | none => []) = [(true, true)] := by
  decide

/-- Claim C5 (amended): a row parsing to more than one name entry and exactly
one date entry falls outside the reconciler's handled cases — it emits no
instance at all and logs the single not-yet-handled error naming the page and
the row. -/
theorem many_names_one_date_unhandled
    (locales : List (String × LocalePage)) (page rowTxt loc : String)
    (names : List IndexTableSingleNameEntry) (dates : List FanzineDateRange)
    (h1 : 1 < names.length) (h2 : dates.length = 1) :
    reconcileLists locales page rowTxt names dates loc
      = ([], [unhandledMsg page rowTxt names.length dates.length]) := by
  apply reconcile_error_branch
  · intro hcon
    rw [hcon] at h1
    simp at h1
  · omega
  · rintro ⟨ha, hb⟩
    omega

/-- Witness for C5's amended theorem. -/
theorem many_names_one_date_unhandled_witness :
    reconcileLists [] "P" "R" [entryA, entryB] [sampleDR1] ""
      = ([], [unhandledMsg "P" "R" 2 1]) :=
  many_names_one_date_unhandled [] "P" "R" "" [entryA, entryB] [sampleDR1] (by decide) rfl

/-- Claim C5 counterexample: the two-name row `[[A]] / [[B]]` with the single
date `July 2-5, 2020` produces zero instances and the not-yet-handled error —
not one instance holding both alternative names. -/
theorem two_names_one_date_zero_instances :
    (ExtractConNameInfo altNamesCell []).map List.length = some 2 ∧
    (ExtractDateInfo testMatch "July 2-5, 2020").length = 1 ∧
    scanRows testMatch [] [] [⟨"P", "R", altNamesCell, "July 2-5, 2020", ""⟩] [] []
      = some ([], [unhandledMsg "P" "R" 2 1]) := by
  refine ⟨by decide, by decide, by decide⟩

/-- Claim C6: a row whose parsed name/date cardinality falls outside the handled
cases (non-empty names, unequal counts, not the one-name-many-dates shape)
yields zero instances and exactly one logged error naming the page and the row,
and the scan of the remaining rows continues with the registry unchanged. -/
theorem unhandled_cardinality_row
    (locales : List (String × LocalePage)) (page rowTxt loc : String)
    (names : List IndexTableSingleNameEntry) (dates : List FanzineDateRange)
    (h0 : names ≠ []) (h1 : names.length ≠ dates.length)
    (h2 : ¬(names.length = 1 ∧ 1 < dates.length)) :
    reconcileLists locales page rowTxt names dates loc
      = ([], [unhandledMsg page rowTxt names.length dates.length]) ∧
    ∀ (matchFn : String → FanzineDateRange) (conseries : List String)
      (r : RowInput) (rs : List RowInput) (reg : Conventions) (errs : List String),
      ExtractConNameInfo r.nameCell conseries = some names →
      ExtractDateInfo matchFn r.dateCell = dates →
      scanRows matchFn locales conseries (r :: rs) reg errs
        = scanRows matchFn locales conseries rs reg
            (errs ++ [unhandledMsg r.page r.rowTxt names.length dates.length]) := by
  constructor
  · exact reconcile_error_branch locales page rowTxt names dates loc h0 h1 h2
  · intro matchFn conseries r rs reg errs hparse hdates
    rw [scanRows, hparse]
    simp only []
    rw [hdates]
    have h0a : DisplayNameMarkupEffect names ≠ [] := by
      intro hcon
      apply h0
      have hlen := DNME_length names
      rw [hcon] at hlen
      exact List.length_eq_zero.mp hlen.symm
    have h1a : (DisplayNameMarkupEffect names).length ≠ dates.length := by
      rw [DNME_length]
      exact h1
    have h2a : ¬((DisplayNameMarkupEffect names).length = 1 ∧ 1 < dates.length) := by
      rw [DNME_length]
      exact h2
    rw [reconcile_error_branch locales r.page r.rowTxt (DisplayNameMarkupEffect names) dates
        r.loc h0a h1a h2a, DNME_length]
    rfl

/-- Witness for C6 at a concrete two-name three-date row. -/
theorem unhandled_cardinality_row_witness :
    reconcileLists [] "P" "R" [entryA, entryB] (ExtractDateInfo testMatch threeDatesCell) ""
      = ([], [unhandledMsg "P" "R" 2 3]) ∧
    scanRows testMatch [] [] [⟨"P", "R", altNamesCell, threeDatesCell, ""⟩] [] []
      = scanRows testMatch [] [] [] [] ([] ++ [unhandledMsg "P" "R" 2 3]) := by
  have h := unhandled_cardinality_row [] "P" "R" "" [entryA, entryB]
      (ExtractDateInfo testMatch threeDatesCell) (by decide) (by decide) (by decide)
  exact ⟨h.1, h.2 testMatch [] ⟨"P", "R", altNamesCell, threeDatesCell, ""⟩ [] [] []
      (by decide) rfl⟩

/-- Claim C1: the Westercon 73 / Loscon 47 row.  The date cell parses to the two
expected entries, but the name cell splits at the `/` inside `</s>` into three
entries ("Westercon 73", a junk `s>` fragment, "Loscon 47"), so the reconciler
hits the not-yet-handled branch and emits zero instances with one error — not
the two instances the claim requires. -/
theorem westercon_loscon_row_unhandled :
    (ExtractConNameInfo westerconNameCell []).map (List.map (fun e => e.text))
      = some ["Westercon 73", "", "Loscon 47"] ∧
    ExtractDateInfo testMatch westerconDateCell
      = [⟨2020, 7, 2, 2020, 7, 5, true, false⟩, ⟨2021, 11, 26, 2021, 11, 28, false, false⟩] ∧
    scanRows testMatch [] [] [westerconRow] [] []
      = some ([], [unhandledMsg "Westercon" westerconRow.rowTxt 3 2]) := by
  refine ⟨by decide, by decide, by decide⟩

/-- Claim C3: parsing `<s>[[A]] / [[B]]</s>` does not cancel every entry of the
group: the cell splits at the slash inside `</s>`, the outer strikeout flag is
dropped (source line 518 computes `cancelled=c2 or c2`), and the entry for B
comes out with `Cancelled = false` (plus a junk third entry). -/
theorem strikeout_group_entry_not_cancelled :
    (ExtractConNameInfo strikeGroupCell []).map (List.map (fun e => (e.text, e.cancelled)))
      = some [("A", true), ("B", false), ("", false)] := by
  decide

/-- Claim C8: `Conventions.Append` stores the Westercon 73 instance under its
`DisplayName`, which is the empty string (the constructor reads the misspelled
`DsiplayName` keyword and the scanner never passes one) — not under the primary
page name "Westercon 73" that the spec derives from the first non-empty Link; a
lookup by page name therefore fails. -/
theorem conventions_append_key_is_empty_displayname :
    west73cii.displayName = "" ∧
    specPrimaryPageName west73cii = "Westercon 73" ∧
    Conventions.Append [] [west73cii] = [("", [west73cii])] ∧
    (Conventions.Append [] [west73cii]).find? (fun p => p.1 == "Westercon 73") = none := by
  refine ⟨rfl, by decide, by decide, by decide⟩

/-- Claim C9: the name cell `[[a|b|c]]` (two `|` characters inside the bracket)
makes `text2.split("|")` yield three pieces, so the two-variable unpacking at
ScanF3PagesForConInfo.py line 515 raises ValueError (modelled as `none`), and
the exception aborts the scan: the following row is never processed. -/
theorem multi_pipe_name_cell_raises :
    ExtractConNameInfo multiPipeCell [] = none ∧
    scanRows testMatch [] []
        [⟨"P", "R1", multiPipeCell, "July 2-5, 2020", ""⟩,
         ⟨"P", "R2", "[[Acon]]", "July 2-5, 2020", ""⟩] [] [] = none := by
  refine ⟨by decide, by decide⟩
